import Mathlib

/-!
Verification of the mknodes/markdownizer node-tree rendering core.

This file shallowly embeds the parts of the source that the checked
properties are about:

* `shift_header_levels` (src/mknodes/basenodes/mknode.py) — regex-based
  markdown header shifting, modelled line by line.
* the `MkNode.to_markdown` post-processing pipeline (same file).
* `MkNode.resolved_parts`, `MkNode.resolved_virtual_files` and
  `MkNode.all_virtual_files` (same file) over a tree model.
* `MkNav` registration and `to_markdown` (src/mknodes/mknav.py).
* `MkPage.metadata` resolution (src/mknodes/pages/mkpage.py).
* `Requirements.merge` (src/mknodes/utils/requirements.py).
* `MkTable._to_markdown` (src/mknodes/basenodes/mktable.py).

Python strings are modelled as `List Char` (named `Str` below) so that
slicing, suffix stripping and joining can be reasoned about directly.
Python `dict`s (which preserve insertion order and overwrite in place on
key reassignment) are modelled as association lists with unique keys,
built by `pyInsert`.
-/

namespace Mknodes

/-- Python strings are modelled as lists of characters. -/
abbrev Str := List Char

/-- Python truthiness of an optional string: `None` and `""` are falsy. -/
def truthyOpt : Option Str → Option Str
  | none => none
  | some s => if s = [] then none else some s

/-- Result of Python `a or b`-style fallback on optionals: the first set value wins. -/
def optOr (a b : Option α) : Option α :=
  match a with
  | some v => some v
  | none => b

@[simp] theorem optOr_some_eq (v : α) (b : Option α) : optOr (some v) b = some v := rfl

@[simp] theorem optOr_none (b : Option α) : optOr none b = b := rfl

theorem optOr_assoc (a b c : Option α) : optOr (optOr a b) c = optOr a (optOr b c) := by
  cases a <;> rfl

/-! ## Python dict model

A Python `dict` preserves insertion order; assigning to an existing key
overwrites the value in place (keeping the key's position), assigning a
fresh key appends it.  `d |= e` / `d.update(e)` assigns every entry of
`e` into `d` in iteration order. -/

/-- Lookup in the association-list dict model. -/
def pyGet? {κ α : Type} [DecidableEq κ] : List (κ × α) → κ → Option α
  | [], _ => none
  | p :: d, k => if p.1 = k then some p.2 else pyGet? d k

/-- Python dict assignment `d[k] = v`: overwrite in place or append. -/
def pyInsert {κ α : Type} [DecidableEq κ] : List (κ × α) → κ → α → List (κ × α)
  | [], k, v => [(k, v)]
  | p :: d, k, v => if p.1 = k then (k, v) :: d else p :: pyInsert d k v

/-- Python `d.update(e)` / `d |= e`: assign all entries of `e` into `d` in order. -/
def pyUpdate {κ α : Type} [DecidableEq κ] (d e : List (κ × α)) : List (κ × α) :=
  e.foldl (fun acc p => pyInsert acc p.1 p.2) d

/-- The key list of a dict, in order. -/
def pyKeys {κ α : Type} (d : List (κ × α)) : List κ :=
  d.map (fun p => p.1)

@[simp] theorem pyGet?_nil {κ α : Type} [DecidableEq κ] (k : κ) :
    pyGet? ([] : List (κ × α)) k = none := rfl

@[simp] theorem pyGet?_cons {κ α : Type} [DecidableEq κ] (p : κ × α) (d : List (κ × α)) (k : κ) :
    pyGet? (p :: d) k = if p.1 = k then some p.2 else pyGet? d k := rfl

@[simp] theorem pyKeys_nil {κ α : Type} : pyKeys ([] : List (κ × α)) = [] := rfl

@[simp] theorem pyKeys_cons {κ α : Type} (p : κ × α) (d : List (κ × α)) :
    pyKeys (p :: d) = p.1 :: pyKeys d := rfl

theorem pyGet?_isSome_iff_mem {κ α : Type} [DecidableEq κ] (d : List (κ × α)) (k : κ) :
    (pyGet? d k).isSome ↔ k ∈ pyKeys d := by
  induction d with
  | nil => simp
  | cons p d ih =>
    by_cases h : p.1 = k
    · simp [h]
    · have hne : ¬ k = p.1 := fun e => h e.symm
      simp [h, ih, hne]

theorem pyGet?_append {κ α : Type} [DecidableEq κ] (d e : List (κ × α)) (k : κ) :
    pyGet? (d ++ e) k = optOr (pyGet? d k) (pyGet? e k) := by
  induction d with
  | nil => simp
  | cons p d ih =>
    by_cases h : p.1 = k <;> simp [h, ih, optOr]

theorem pyGet?_pyInsert {κ α : Type} [DecidableEq κ] (d : List (κ × α)) (k : κ) (v : α) (k' : κ) :
    pyGet? (pyInsert d k v) k' = if k = k' then some v else pyGet? d k' := by
  induction d with
  | nil =>
    by_cases h : k = k' <;> simp [pyInsert, h]
  | cons p d ih =>
    simp only [pyInsert]
    by_cases hp : p.1 = k
    · rw [if_pos hp]
      by_cases h : k = k'
      · subst h
        simp [hp]
      · have hp' : ¬ p.1 = k' := fun e => h (hp.symm.trans e)
        simp [h, hp']
    · rw [if_neg hp]
      by_cases h : k = k'
      · subst h
        simp [hp, ih]
      · by_cases hq : p.1 = k'
        · have hq' : ¬ k' = k := fun e => h e.symm
          simp [hq, hq', ih, h]
        · simp [hq, ih, h]

theorem pyKeys_pyInsert_mem {κ α : Type} [DecidableEq κ] (d : List (κ × α)) (k : κ) (v : α)
    (h : k ∈ pyKeys d) : pyKeys (pyInsert d k v) = pyKeys d := by
  induction d with
  | nil => simp at h
  | cons p d ih =>
    by_cases hp : p.1 = k
    · simp [pyInsert, hp]
    · have hd : k ∈ pyKeys d := by
        rcases (by simpa using h) with h1 | h2
        · exact absurd h1.symm hp
        · exact h2
      simp [pyInsert, hp, ih hd]

theorem pyKeys_pyInsert_not_mem {κ α : Type} [DecidableEq κ] (d : List (κ × α)) (k : κ) (v : α)
    (h : ¬ k ∈ pyKeys d) : pyKeys (pyInsert d k v) = pyKeys d ++ [k] := by
  induction d with
  | nil => simp [pyInsert]
  | cons p d ih =>
    have hp : ¬ p.1 = k := fun e => h (by simp [e])
    have hd : ¬ k ∈ pyKeys d := fun e => h (by simp [e])
    simp [pyInsert, hp, ih hd]

theorem length_pyKeys {κ α : Type} (d : List (κ × α)) : (pyKeys d).length = d.length := by
  simp [pyKeys]

theorem length_pyInsert_mem {κ α : Type} [DecidableEq κ] (d : List (κ × α)) (k : κ) (v : α)
    (h : k ∈ pyKeys d) : (pyInsert d k v).length = d.length := by
  rw [← length_pyKeys, pyKeys_pyInsert_mem d k v h, length_pyKeys]

theorem length_pyInsert_not_mem {κ α : Type} [DecidableEq κ] (d : List (κ × α)) (k : κ) (v : α)
    (h : ¬ k ∈ pyKeys d) : (pyInsert d k v).length = d.length + 1 := by
  rw [← length_pyKeys, pyKeys_pyInsert_not_mem d k v h]
  simp [length_pyKeys]

theorem nodup_pyKeys_pyInsert {κ α : Type} [DecidableEq κ] (d : List (κ × α)) (k : κ) (v : α)
    (h : (pyKeys d).Nodup) : (pyKeys (pyInsert d k v)).Nodup := by
  by_cases hm : k ∈ pyKeys d
  · rw [pyKeys_pyInsert_mem d k v hm]; exact h
  · rw [pyKeys_pyInsert_not_mem d k v hm]
    refine List.Nodup.append h (List.nodup_singleton k) ?_
    intro a ha hb
    rw [List.mem_singleton] at hb
    subst hb
    exact hm ha

theorem mem_pyKeys_pyInsert {κ α : Type} [DecidableEq κ] (d : List (κ × α)) (k : κ) (v : α)
    (k' : κ) : k' ∈ pyKeys (pyInsert d k v) ↔ k' = k ∨ k' ∈ pyKeys d := by
  by_cases hm : k ∈ pyKeys d
  · rw [pyKeys_pyInsert_mem d k v hm]
    constructor
    · exact Or.inr
    · rintro (rfl | h)
      · exact hm
      · exact h
  · rw [pyKeys_pyInsert_not_mem d k v hm]
    simp [or_comm]

theorem pyInsert_not_mem {κ α : Type} [DecidableEq κ] (d : List (κ × α)) (k : κ) (v : α)
    (h : ¬ k ∈ pyKeys d) : pyInsert d k v = d ++ [(k, v)] := by
  induction d with
  | nil => simp [pyInsert]
  | cons p d ih =>
    have hp : ¬ p.1 = k := fun e => h (by simp [e])
    have hd : ¬ k ∈ pyKeys d := fun e => h (by simp [e])
    simp [pyInsert, hp, ih hd]

@[simp] theorem pyUpdate_nil_left {κ α : Type} [DecidableEq κ] (d : List (κ × α)) :
    pyUpdate d [] = d := rfl

theorem pyUpdate_cons {κ α : Type} [DecidableEq κ] (d : List (κ × α)) (p : κ × α)
    (e : List (κ × α)) : pyUpdate d (p :: e) = pyUpdate (pyInsert d p.1 p.2) e := rfl

/-- After `d.update(e)`, lookup prefers the last assignment from `e`, falling back to `d`. -/
theorem pyGet?_pyUpdate {κ α : Type} [DecidableEq κ] (d e : List (κ × α)) (k : κ) :
    pyGet? (pyUpdate d e) k = optOr (pyGet? e.reverse k) (pyGet? d k) := by
  induction e generalizing d with
  | nil => simp [pyUpdate]
  | cons p e ih =>
    rw [pyUpdate_cons, ih]
    rw [List.reverse_cons, pyGet?_append, optOr_assoc]
    rw [pyGet?_pyInsert]
    cases hA : pyGet? e.reverse k
    · by_cases h : p.1 = k <;> simp [optOr, h]
    · simp [optOr]

theorem pyKeys_pyUpdate_nodup {κ α : Type} [DecidableEq κ] (d e : List (κ × α))
    (h : (pyKeys d).Nodup) : (pyKeys (pyUpdate d e)).Nodup := by
  induction e generalizing d with
  | nil => simpa [pyUpdate]
  | cons p e ih =>
    rw [pyUpdate_cons]
    exact ih _ (nodup_pyKeys_pyInsert d p.1 p.2 h)

theorem mem_pyKeys_pyUpdate {κ α : Type} [DecidableEq κ] (d e : List (κ × α)) (k : κ) :
    k ∈ pyKeys (pyUpdate d e) ↔ k ∈ pyKeys d ∨ k ∈ pyKeys e := by
  induction e generalizing d with
  | nil => simp [pyUpdate]
  | cons p e ih =>
    rw [pyUpdate_cons, ih, mem_pyKeys_pyInsert]
    simp only [pyKeys_cons, List.mem_cons]
    tauto

/-- The number of entries after updating the empty dict equals the number of
distinct keys in the assignment sequence. -/
theorem length_pyUpdate_nil {κ α : Type} [DecidableEq κ] (e : List (κ × α)) :
    (pyUpdate ([] : List (κ × α)) e).length = (pyKeys e).dedup.length := by
  have hnd : (pyKeys (pyUpdate ([] : List (κ × α)) e)).Nodup :=
    pyKeys_pyUpdate_nodup [] e (by simp)
  have hmem : ∀ k, k ∈ pyKeys (pyUpdate ([] : List (κ × α)) e) ↔ k ∈ pyKeys e := by
    intro k
    rw [mem_pyKeys_pyUpdate]
    simp
  have hfin : (pyKeys (pyUpdate ([] : List (κ × α)) e)).toFinset = (pyKeys e).toFinset := by
    apply Finset.ext
    intro a
    simp only [List.mem_toFinset]
    exact hmem a
  calc (pyUpdate ([] : List (κ × α)) e).length
      = (pyKeys (pyUpdate ([] : List (κ × α)) e)).length := (length_pyKeys _).symm
    _ = (pyKeys (pyUpdate ([] : List (κ × α)) e)).toFinset.card :=
        (List.toFinset_card_of_nodup hnd).symm
    _ = (pyKeys e).toFinset.card := by rw [hfin]
    _ = (pyKeys e).dedup.length := List.card_toFinset _

theorem dedup_length_lt_of_not_nodup {κ : Type} [DecidableEq κ] (l : List κ)
    (h : ¬ l.Nodup) : l.dedup.length < l.length := by
  have hs : l.dedup.Sublist l := List.dedup_sublist l
  rcases lt_or_eq_of_le hs.length_le with hlt | heq
  · exact hlt
  · exact absurd (hs.eq_of_length heq ▸ l.nodup_dedup) h

/-- Updating the empty dict with a collision-free assignment sequence reproduces it. -/
theorem pyUpdate_append_of_disjoint {κ α : Type} [DecidableEq κ] (e : List (κ × α)) :
    ∀ d : List (κ × α), (pyKeys e).Nodup → (∀ k ∈ pyKeys e, ¬ k ∈ pyKeys d) →
    pyUpdate d e = d ++ e := by
  induction e with
  | nil => intro d _ _; simp [pyUpdate]
  | cons p e ih =>
    intro d he hd
    have hp : ¬ p.1 ∈ pyKeys d := hd p.1 (by simp)
    rw [pyUpdate_cons, pyInsert_not_mem d p.1 p.2 hp]
    have he' : (pyKeys e).Nodup := by
      rw [pyKeys_cons] at he
      exact he.of_cons
    have hd' : ∀ k ∈ pyKeys e, ¬ k ∈ pyKeys (d ++ [(p.1, p.2)]) := by
      intro k hk hmem
      rcases (by simpa [pyKeys] using hmem) with h1 | h2
      · exact hd k (by simp [hk]) (by simpa [pyKeys] using h1)
      · rw [pyKeys_cons] at he
        rw [List.nodup_cons] at he
        exact he.1 (h2 ▸ hk)
    rw [ih _ he' hd']
    simp

theorem pyUpdate_nil_of_nodup {κ α : Type} [DecidableEq κ] (e : List (κ × α))
    (he : (pyKeys e).Nodup) : pyUpdate ([] : List (κ × α)) e = e := by
  rw [pyUpdate_append_of_disjoint e [] he (by simp)]
  simp

/-! ## Line splitting

`re.sub` with `re.MULTILINE` and the pattern `^(#{1,6}) (.*)` rewrites each
line of the text independently (`^` anchors at line starts, `(.*)` stops
before the next newline), so `shift_header_levels` is modelled by splitting
the text at newline characters, transforming each line, and joining back. -/

/-- Split a character list at every newline (like Python `str.split("\n")`). -/
def splitNl : List Char → List (List Char)
  | [] => [[]]
  | c :: cs =>
    if c = '\n' then [] :: splitNl cs
    else
      match splitNl cs with
      | [] => [[c]]
      | l :: ls => (c :: l) :: ls

/-- Join lines with newline separators (inverse of `splitNl`). -/
def joinNl : List (List Char) → List Char
  | [] => []
  | [l] => l
  | l :: l' :: ls => l ++ '\n' :: joinNl (l' :: ls)

theorem splitNl_ne_nil (cs : List Char) : splitNl cs ≠ [] := by
  induction cs with
  | nil => simp [splitNl]
  | cons c cs ih =>
    by_cases h : c = '\n'
    · simp [splitNl, h]
    · simp only [splitNl, if_neg h]
      cases hs : splitNl cs <;> simp

theorem mem_splitNl_no_newline (cs : List Char) : ∀ l ∈ splitNl cs, ¬ '\n' ∈ l := by
  induction cs with
  | nil =>
    intro l hl
    simp [splitNl] at hl
    simp [hl]
  | cons c cs ih =>
    intro l hl
    by_cases h : c = '\n'
    · simp only [splitNl, if_pos h, List.mem_cons] at hl
      rcases hl with rfl | hl
      · simp
      · exact ih l hl
    · simp only [splitNl, if_neg h] at hl
      cases hs : splitNl cs with
      | nil => exact absurd hs (splitNl_ne_nil cs)
      | cons l0 ls =>
        rw [hs] at hl
        rcases (by simpa using hl) with rfl | hl2
        · intro hmem
          rcases (by simpa using hmem) with h1 | h2
          · exact h h1.symm
          · exact ih l0 (by simp [hs]) h2
        · exact ih l (by simp [hs, hl2])

theorem joinNl_splitNl (cs : List Char) : joinNl (splitNl cs) = cs := by
  induction cs with
  | nil => simp [splitNl, joinNl]
  | cons c cs ih =>
    by_cases h : c = '\n'
    · subst h
      simp only [splitNl, if_pos rfl]
      cases hs : splitNl cs with
      | nil => exact absurd hs (splitNl_ne_nil cs)
      | cons l ls =>
        rw [hs] at ih
        simp [joinNl, ih]
    · simp only [splitNl, if_neg h]
      cases hs : splitNl cs with
      | nil => exact absurd hs (splitNl_ne_nil cs)
      | cons l ls =>
        rw [hs] at ih
        cases ls with
        | nil => simp [joinNl] at ih ⊢; simp [ih]
        | cons l' ls' => simp [joinNl] at ih ⊢; simp [ih]

theorem splitNl_single (l : List Char) (h : ¬ '\n' ∈ l) : splitNl l = [l] := by
  induction l with
  | nil => simp [splitNl]
  | cons c cs ih =>
    have hc : ¬ c = '\n' := fun e => h (by simp [e])
    have hcs : ¬ '\n' ∈ cs := fun e => h (by simp [e])
    simp [splitNl, hc, ih hcs]

theorem splitNl_append_newline (l rest : List Char) (h : ¬ '\n' ∈ l) :
    splitNl (l ++ '\n' :: rest) = l :: splitNl rest := by
  induction l with
  | nil => simp [splitNl]
  | cons c cs ih =>
    have hc : ¬ c = '\n' := fun e => h (by simp [e])
    have hcs : ¬ '\n' ∈ cs := fun e => h (by simp [e])
    simp only [List.cons_append, splitNl, if_neg hc]
    rw [show cs.append ('\n' :: rest) = cs ++ '\n' :: rest from rfl, ih hcs]

theorem splitNl_joinNl (ls : List (List Char)) (hne : ls ≠ [])
    (h : ∀ l ∈ ls, ¬ '\n' ∈ l) : splitNl (joinNl ls) = ls := by
  induction ls with
  | nil => exact absurd rfl hne
  | cons l ls ih =>
    cases ls with
    | nil =>
      simp only [joinNl]
      exact splitNl_single l (h l (by simp))
    | cons l' ls' =>
      simp only [joinNl]
      rw [splitNl_append_newline l _ (h l (by simp))]
      rw [ih (by simp) (fun x hx => h x (by simp [hx]))]

/-! ## Header shifting (`shift_header_levels`, src/mknodes/basenodes/mknode.py lines 19-28)

A line matches `^(#{1,6}) (.*)` exactly when its maximal leading run of
`#` characters has length 1..6 and is followed by a space (a run of 7 or
more can never match, since the greedy `#{1,6}` only backtracks over `#`
characters and the next character is then still `#`).  The replacement
rebuilds the line as `f"{header_str} {match[2]}"` where `header_str` is
the marker extended by `levels` hashes (positive shift) or the Python
slice `header_str[:levels]` (non-positive shift). -/

/-- Length of the maximal leading run of `#` characters. -/
def countHashes (l : List Char) : Nat := (l.takeWhile (fun c => c = '#')).length

/-- Decompose a line as a markdown heading the way `HEADER_REGEX` matches it:
marker length 1..6 followed by a space; returns the marker length and the text
after the space. -/
def lineMatch? (l : List Char) : Option (Nat × List Char) :=
  let h := countHashes l
  if 1 ≤ h ∧ h ≤ 6 then
    match l.drop h with
    | c :: rest => if c = ' ' then some (h, rest) else none
    | [] => none
  else none

/-- Python slice `l[:j]` for a possibly negative bound `j`. -/
def pySliceTo (l : List Char) (j : Int) : List Char :=
  if 0 ≤ j then l.take j.toNat else l.take ((l.length : Int) + j).toNat

/-- The per-line action of `shift_header_levels`. -/
def shiftLine (levels : Int) (l : List Char) : List Char :=
  match lineMatch? l with
  | none => l
  | some (h, rest) =>
    let marker :=
      if 0 < levels then List.replicate h '#' ++ List.replicate levels.toNat '#'
      else pySliceTo (List.replicate h '#') levels
    marker ++ ' ' :: rest

/-- Embedding of `shift_header_levels(text, levels)`. -/
def shift_header_levels (text : Str) (levels : Int) : Str :=
  joinNl ((splitNl text).map (shiftLine levels))

theorem countHashes_replicate_space (m : Nat) (rest : List Char) :
    countHashes (List.replicate m '#' ++ ' ' :: rest) = m := by
  induction m with
  | zero => simp [countHashes, List.takeWhile]
  | succ n ih =>
    simp only [List.replicate_succ, List.cons_append]
    simp only [countHashes, List.takeWhile] at ih ⊢
    simp [ih]

theorem dropWhile_eq_drop_count (p : Char → Bool) (l : List Char) :
    l.dropWhile p = l.drop (l.takeWhile p).length := by
  induction l with
  | nil => simp
  | cons c cs ih =>
    by_cases h : p c
    · simp [List.takeWhile, List.dropWhile, h, ih]
    · simp [List.takeWhile, List.dropWhile, h]

theorem drop_replicate_append (m : Nat) (c : Char) (x : List Char) :
    (List.replicate m c ++ x).drop m = x := by
  induction m with
  | zero => simp
  | succ n ih => simp [List.replicate_succ, ih]

theorem lineMatch?_replicate (h : Nat) (rest : List Char) (h1 : 1 ≤ h) (h6 : h ≤ 6) :
    lineMatch? (List.replicate h '#' ++ ' ' :: rest) = some (h, rest) := by
  simp only [lineMatch?, countHashes_replicate_space, drop_replicate_append]
  rw [if_pos ⟨h1, h6⟩]
  simp

theorem lineMatch?_eq_some (l : List Char) (h : Nat) (rest : List Char)
    (hm : lineMatch? l = some (h, rest)) :
    l = List.replicate h '#' ++ ' ' :: rest ∧ 1 ≤ h ∧ h ≤ 6 := by
  unfold lineMatch? at hm
  by_cases hc : 1 ≤ countHashes l ∧ countHashes l ≤ 6
  · rw [if_pos hc] at hm
    cases hd : l.drop (countHashes l) with
    | nil => rw [hd] at hm; simp at hm
    | cons c0 rest0 =>
      rw [hd] at hm
      replace hm : (if c0 = ' ' then some (countHashes l, rest0) else none) = some (h, rest) := hm
      by_cases hsp : c0 = ' '
      · rw [if_pos hsp] at hm
        have hpair : (countHashes l, rest0) = (h, rest) := Option.some.inj hm
        have hh1 : countHashes l = h := congrArg Prod.fst hpair
        have hh2 : rest0 = rest := congrArg Prod.snd hpair
        have htw : l.takeWhile (fun c => c = '#') = List.replicate h '#' := by
          refine List.eq_replicate_iff.mpr ⟨by simpa [countHashes] using hh1, ?_⟩
          intro b hb
          have := List.mem_takeWhile_imp hb
          exact of_decide_eq_true this
        have hsplit : l.takeWhile (fun c => c = '#') ++ l.drop (countHashes l) = l := by
          rw [countHashes, ← dropWhile_eq_drop_count]
          exact List.takeWhile_append_dropWhile _ _
        constructor
        · rw [← hsplit, htw, hd, hsp, hh2]
        · rw [← hh1]
          exact hc
      · rw [if_neg hsp] at hm
        exact absurd hm (by simp)
  · rw [if_neg hc] at hm
    exact absurd hm (by simp)

theorem shiftLine_not_match (levels : Int) (l : List Char) (hm : lineMatch? l = none) :
    shiftLine levels l = l := by
  simp [shiftLine, hm]

theorem shiftLine_pos (k : Int) (hk : 0 < k) (h : Nat) (rest : List Char)
    (hmatch : lineMatch? (List.replicate h '#' ++ ' ' :: rest) = some (h, rest)) :
    shiftLine k (List.replicate h '#' ++ ' ' :: rest) =
      List.replicate (h + k.toNat) '#' ++ ' ' :: rest := by
  simp only [shiftLine, hmatch, if_pos hk]
  rw [List.replicate_add]

/-- One forward/backward shift round trip on a single line, provided the shifted
heading stayed within markdown's six levels. -/
theorem shiftLine_roundtrip (k : Int) (hk : 0 < k) (l : List Char)
    (hcond : ∀ h rest, lineMatch? l = some (h, rest) → (h : Int) + k ≤ 6) :
    shiftLine (-k) (shiftLine k l) = l := by
  cases hm : lineMatch? l with
  | none => rw [shiftLine_not_match k l hm, shiftLine_not_match (-k) l hm]
  | some pr =>
    obtain ⟨h, rest⟩ := pr
    obtain ⟨hl, h1, h6⟩ := lineMatch?_eq_some l h rest hm
    have hbound : (h : Int) + k ≤ 6 := hcond h rest hm
    have hk0 : (k.toNat : Int) = k := Int.toNat_of_nonneg hk.le
    have h6' : h + k.toNat ≤ 6 := by omega
    have h1' : 1 ≤ h + k.toNat := by omega
    rw [hl]
    rw [shiftLine_pos k hk h rest (hl ▸ hm)]
    have hmatch2 := lineMatch?_replicate (h + k.toNat) rest h1' h6'
    simp only [shiftLine, hmatch2]
    have hneg : ¬ (0 : Int) < -k := by omega
    rw [if_neg hneg]
    have hs : pySliceTo (List.replicate (h + k.toNat) '#') (-k) = List.replicate h '#' := by
      unfold pySliceTo
      have hj : ¬ (0 : Int) ≤ -k := by omega
      rw [if_neg hj]
      have : ((List.replicate (h + k.toNat) '#').length : Int) + -k = (h : Int) := by
        simp [hk0]
      rw [this]
      simp only [Int.toNat_natCast]
      rw [List.take_replicate]
      simp
    rw [hs]

theorem shiftLine_no_newline (levels : Int) (l : List Char) (h : ¬ '\n' ∈ l) :
    ¬ '\n' ∈ shiftLine levels l := by
  cases hm : lineMatch? l with
  | none => rw [shiftLine_not_match levels l hm]; exact h
  | some pr =>
    obtain ⟨m, rest⟩ := pr
    obtain ⟨hl, _, _⟩ := lineMatch?_eq_some l m rest hm
    have hrest : ¬ '\n' ∈ rest := by
      intro hr
      exact h (by rw [hl]; simp [hr])
    simp only [shiftLine, hm]
    intro hmem
    rcases List.mem_append.mp hmem with hmk | htl
    · by_cases hp : (0 : Int) < levels
      · rw [if_pos hp] at hmk
        rcases List.mem_append.mp hmk with h1 | h2
        · exact absurd (List.eq_of_mem_replicate h1) (by decide)
        · exact absurd (List.eq_of_mem_replicate h2) (by decide)
      · rw [if_neg hp] at hmk
        unfold pySliceTo at hmk
        have : '\n' ∈ List.replicate m '#' := by
          by_cases hj : (0 : Int) ≤ levels
          · rw [if_pos hj] at hmk
            exact List.mem_of_mem_take hmk
          · rw [if_neg hj] at hmk
            exact List.mem_of_mem_take hmk
        exact absurd (List.eq_of_mem_replicate this) (by decide)
    · rcases List.mem_cons.mp htl with h1 | h2
      · exact absurd h1 (by decide)
      · exact hrest h2

/-- Text-level round trip of `shift_header_levels`. -/
theorem shift_header_levels_roundtrip (text : Str) (k : Int) (hk : 0 < k)
    (hcond : ∀ l ∈ splitNl text, ∀ h rest, lineMatch? l = some (h, rest) → (h : Int) + k ≤ 6) :
    shift_header_levels (shift_header_levels text k) (-k) = text := by
  unfold shift_header_levels
  have hsplit : splitNl (joinNl ((splitNl text).map (shiftLine k))) =
      (splitNl text).map (shiftLine k) := by
    apply splitNl_joinNl
    · simp [splitNl_ne_nil]
    · intro l hl
      rcases List.mem_map.mp hl with ⟨l0, hl0, rfl⟩
      exact shiftLine_no_newline k l0 (mem_splitNl_no_newline text l0 hl0)
  rw [hsplit, List.map_map]
  have hmap : (splitNl text).map (shiftLine (-k) ∘ shiftLine k) = splitNl text := by
    have h1 : (splitNl text).map (shiftLine (-k) ∘ shiftLine k) = (splitNl text).map id := by
      apply List.map_congr_left
      intro l hl
      simp only [Function.comp, id]
      exact shiftLine_roundtrip k hk l (hcond l hl)
    rw [h1, List.map_id]
  rw [hmap, joinNl_splitNl]

/-! ## The `MkNode.to_markdown` post-processing pipeline
(src/mknodes/basenodes/mknode.py lines 109-124)

The instance attributes that drive the pipeline.  `cssClasses` models the
`_css_classes` Python `set`; its list order stands in for the set's
iteration order, which CPython does not specify for strings (hash
randomization), so no theorem below depends on that order.  `annotations`
models the `MkAnnotations` child; its rendering is not part of the
provided sources, so `attach_annotations` is modelled from the spec. -/

structure NodeCfg where
  header : Str
  indent : Str
  shiftHeaderLevels : Int
  cssClasses : List Str
  annotations : List Str

/-- Step 2 of the pipeline: `if self.shift_header_levels:` (0 is falsy). -/
def shiftStage (cfg : NodeCfg) (text : Str) : Str :=
  if cfg.shiftHeaderLevels ≠ 0 then shift_header_levels text cfg.shiftHeaderLevels else text

/-- `textwrap.indent(text, prefix)`: the prefix is added to every line that
contains a non-whitespace character. -/
def indentText (pfx : Str) (text : Str) : Str :=
  joinNl ((splitNl text).map (fun l => if l.any (fun c => !c.isWhitespace) then pfx ++ l else l))

/-- Step 3: `if self.indent:` ("" is falsy). -/
def indentStage (cfg : NodeCfg) (text : Str) : Str :=
  if cfg.indent ≠ [] then indentText cfg.indent text else text

/-- The `"\x7b: .class1 .class2\x7d"` attribute-list suffix built from the classes. -/
def cssSuffix (classes : List Str) : Str :=
  "\x7b: ".toList ++ List.intercalate " ".toList (classes.map (fun c => '.' :: c)) ++
    "\x7d".toList

/-- Step 4: `if self._css_classes:` append the suffix. -/
def cssStage (cfg : NodeCfg) (text : Str) : Str :=
  if cfg.cssClasses ≠ [] then text ++ cssSuffix cfg.cssClasses else text

/-- Python `str.startswith("#")` on the header. -/
def startsWithHash : Str → Bool
  | [] => false
  | c :: _ => c = '#'

/-- Step 5: `if not self.header: ... else` prepend the (possibly `## `-prefixed)
header and a blank line. -/
def headerStage (cfg : NodeCfg) (text : Str) : Str :=
  if cfg.header = [] then text
  else
    (if startsWithHash cfg.header then cfg.header else "## ".toList ++ cfg.header) ++
      "\n\n".toList ++ text

/-- Modelled from the spec: the `MkAnnotations` node (its module is not among the
provided sources).  Spec section 4.1 step 6: annotations are rendered at the end of
the text block; with no annotations the text is returned unchanged. -/
def attach_annotations (anns : List Str) (text : Str) : Str :=
  if anns = [] then text else text ++ "\n\n".toList ++ joinNl anns

/-- Embedding of `MkNode.to_markdown`: the fixed-order pipeline applied to the
node-specific raw markdown (`_to_markdown`).  Both source branches (`if not
self.header: return self.attach_annotations(text)` and the header-prepending
fallthrough) end in one `attach_annotations` call, so the pipeline composes the
header step before a single annotation step. -/
def to_markdownNode (cfg : NodeCfg) (raw : Str) : Str :=
  attach_annotations cfg.annotations
    (headerStage cfg (cssStage cfg (indentStage cfg (shiftStage cfg raw))))

/-! ## Virtual-file aggregation
(`MkNode.resolved_virtual_files` and `MkNode.all_virtual_files`,
src/mknodes/basenodes/mknode.py lines 149-178)

The tree: every node carries its locally registered `_files` dict (the
base-class `virtual_files()` result) and an `MkNav` marker with the nav's
`section`.  `all_virtual_files` unions `resolved_virtual_files` over all
descendants — modelled, per the spec's "depth-first walk of every
descendant", as a preorder depth-first traversal, since the `treelib`
base class providing `descendants` is not among the provided sources —
and finally unions the node's own resolved files. -/

/- A node of the ownership tree: `nav = none` for a plain `MkNode`,
`nav = some sec` for an `MkNav` with section `sec` (`none` for the unnamed
root section).  The children are a `VForest` (a mutual inductive copy of a
list) so that the traversals below are structurally recursive. -/
mutual
inductive VNode where
  | mk (nav : Option (Option Str)) (files : List (Str × Str)) (children : VForest)
inductive VForest where
  | nil : VForest
  | cons : VNode → VForest → VForest
end

def VNode.files : VNode → List (Str × Str)
  | .mk _ fs _ => fs

def VNode.children : VNode → VForest
  | .mk _ _ cs => cs

def VNode.nav : VNode → Option (Option Str)
  | .mk nv _ _ => nv

/-- The `"/".join(...) + "/"` section path used by `resolved_virtual_files`:
the accumulated `MkNav` ancestor sections (root to node, `None` sections
skipped), joined by `/`, with a trailing `/` when non-empty. -/
def sectionPath (secs : List Str) : Str :=
  let joined := List.intercalate "/".toList secs
  if joined = [] then [] else joined ++ "/".toList

/-- `resolved_virtual_files`: every locally registered file name prefixed
with the ancestor section path. -/
def resolvedFiles (secs : List Str) (files : List (Str × Str)) : List (Str × Str) :=
  files.map (fun p => (sectionPath secs ++ p.1, p.2))

/-- The ancestor-section list seen by the children of a node whose `nav`
marker is `nv` and whose own ancestor-section list is `secs`: an `MkNav`
with a non-`None` section appends it. -/
def childSecs (secs : List Str) (nv : Option (Option Str)) : List Str :=
  match nv with
  | some (some s) => secs ++ [s]
  | _ => secs

mutual
/-- Resolved virtual-file entries of a node and all its descendants, node
first, then each child subtree in order (preorder). -/
def selfThenDesc (secs : List Str) : VNode → List (Str × Str)
  | .mk nv fs cs => resolvedFiles secs fs ++ forestEntries (childSecs secs nv) cs
/-- Resolved virtual-file entries of a forest of sibling subtrees, in order. -/
def forestEntries (secs : List Str) : VForest → List (Str × Str)
  | .nil => []
  | .cons n rest => selfThenDesc secs n ++ forestEntries secs rest
end

/-- The entry sequence that `all_virtual_files` assigns into its result dict:
all strict descendants in depth-first preorder, then the node itself last. -/
def allEntries : VNode → List (Str × Str)
  | .mk nv fs cs => forestEntries (childSecs [] nv) cs ++ resolvedFiles [] fs

/-- Embedding of `MkNode.all_virtual_files()` (with `only_children=False`). -/
def all_virtual_files (n : VNode) : List (Str × Str) :=
  pyUpdate [] (allEntries n)

mutual
/-- The number of locally registered byproduct files in the subtree. -/
def totalFiles : VNode → Nat
  | .mk _ fs cs => fs.length + forestTotal cs
/-- The number of locally registered byproduct files in a forest. -/
def forestTotal : VForest → Nat
  | .nil => 0
  | .cons n rest => totalFiles n + forestTotal rest
end

theorem length_resolvedFiles (secs : List Str) (fs : List (Str × Str)) :
    (resolvedFiles secs fs).length = fs.length := by
  simp [resolvedFiles]

mutual
theorem length_selfThenDesc (secs : List Str) :
    (n : VNode) → (selfThenDesc secs n).length = totalFiles n
  | .mk nv fs cs => by
    rw [selfThenDesc, totalFiles, List.length_append, length_resolvedFiles,
      length_forestEntries]
theorem length_forestEntries (secs : List Str) :
    (f : VForest) → (forestEntries secs f).length = forestTotal f
  | .nil => by rw [forestEntries, forestTotal]; rfl
  | .cons n rest => by
    rw [forestEntries, forestTotal, List.length_append, length_selfThenDesc,
      length_forestEntries]
end

/-! ## Python `str.removesuffix` -/

/-- Python `s.removesuffix(suf)`: drop one trailing occurrence when present. -/
def removesuffix (s suf : Str) : Str :=
  if suf <:+ s then s.take (s.length - suf.length) else s

theorem removesuffix_append (t suf : Str) : removesuffix (t ++ suf) suf = t := by
  unfold removesuffix
  rw [if_pos (List.suffix_append t suf)]
  have hlen : (t ++ suf).length - suf.length = t.length := by
    simp
  rw [hlen]
  exact List.take_left t suf

/-! ## Pages and navigation (src/mknodes/mknav.py, src/mknodes/pages/mkpage.py)

`MkNav.nav` is a dict keyed by `None` (the index page), a string (pages,
keyed by path minus `.md`) or a tuple (sub-navs, keyed by the one-tuple of
the section).  A string key and the one-tuple of the same string are
distinct Python dict keys, so the key type keeps them apart. -/

/-- The state of an `MkPage` relevant to path and registration behaviour. -/
structure PageS where
  rawPath : Option Str
  isHomepage : Bool
  metaTitle : Option Str
deriving DecidableEq

/-- `MkPage.path` (src/mknodes/pages/mkpage.py lines 127-135).  `navCount`
stands for `len(self.parent_navs)`, which only the homepage branch reads.
The `metaTitle` fallback renders `f"{self.metadata.title}.md"`, which
produces the literal `None` when the title is unset. -/
def PageS.path (navCount : Nat) (p : PageS) : Str :=
  if p.isHomepage then
    (List.replicate (navCount - 1) "../".toList).flatten ++ "index.md".toList
  else
    match p.rawPath with
    | some q => removesuffix q ".md".toList ++ ".md".toList
    | none => (match p.metaTitle with | some t => t | none => "None".toList) ++ ".md".toList

/-- Keys of the `MkNav.nav` dict. -/
inductive NavKey where
  | noneK : NavKey
  | strK : Str → NavKey
  | tupK : List (Option Str) → NavKey
deriving DecidableEq

mutual
inductive MkNavS where
  | mk : Option Str → Str → List (NavKey × NavChild) → MkNavS
inductive NavChild where
  | pageC : PageS → NavChild
  | navC : MkNavS → NavChild
end

def MkNavS.sec : MkNavS → Option Str
  | .mk s _ _ => s

def MkNavS.fname : MkNavS → Str
  | .mk _ f _ => f

def MkNavS.entries : MkNavS → List (NavKey × NavChild)
  | .mk _ _ e => e

/-- `MkNav.__init__`: the `pathlib` path `section/filename` (bare filename when
the section is falsy). -/
def MkNavS.path (n : MkNavS) : Str :=
  match n.sec with
  | some s => if s = [] then n.fname else s ++ '/' :: n.fname
  | none => n.fname

/-- A fresh `MkNav(section)` with the default `SUMMARY.md` filename. -/
def MkNavS.new (sec : Option Str) : MkNavS :=
  .mk sec "SUMMARY.md".toList []

/-- `MkNav._register` (src/mknodes/mknav.py lines 185-190): navs are keyed by the
one-tuple of their section, pages by their path with the `.md` suffix stripped.
`pageNavCount` stands for the registered page's `len(self.parent_navs)`. -/
def MkNavS.register (pageNavCount : Nat) (n : MkNavS) (child : NavChild) : MkNavS :=
  match child with
  | .navC c => .mk n.sec n.fname (pyInsert n.entries (NavKey.tupK [c.sec]) child)
  | .pageC p =>
    .mk n.sec n.fname
      (pyInsert n.entries (NavKey.strK (removesuffix (p.path pageNavCount) ".md".toList)) child)

/-- `MkNav.add_nav(section)`: create a sub-nav with this nav as parent, register
it, return it. -/
def MkNavS.add_nav (n : MkNavS) (s : Str) : MkNavS × MkNavS :=
  let child := MkNavS.new (some s)
  (n.register 0 (NavChild.navC child), child)

/-- `MkNav.add_page(title, filename=None)`: create a page with path
`filename or f"{title}.md"` (`None` and the empty string are falsy) and this
nav as parent, register it, return it. -/
def MkNavS.add_page (pageNavCount : Nat) (n : MkNavS) (title : Str) (filename : Option Str) :
    MkNavS × PageS :=
  let page : PageS :=
    { rawPath := some (match filename with
        | some f => if f = [] then title ++ ".md".toList else f
        | none => title ++ ".md".toList)
      isHomepage := false
      metaTitle := none }
  (n.register pageNavCount (NavChild.pageC page), page)

/-- The link target of one nav entry in `MkNav.to_markdown`: a page contributes
`pathlib.Path(item.path).as_posix()` (identity on the plain relative paths built
here), a sub-nav contributes `f"{item.section}/"`. -/
def entryTarget (pageNavCount : Nat) : NavChild → Str
  | .pageC p => p.path pageNavCount
  | .navC c => (match c.sec with | some s => s | none => "None".toList) ++ "/".toList

/-- The (title, target) pairs assigned into the `mkdocs_gen_files.Nav` object,
in iteration order of the `MkNav.nav` dict, skipping the `None` key.  Key shapes
outside the fragment built by the registration API (tuples that are not a
one-tuple of a string) are not modelled and yield an error. -/
def navPairs (pageNavCount : Nat) : List (NavKey × NavChild) → Except Str (List (Str × Str))
  | [] => .ok []
  | (k, c) :: rest =>
    match k with
    | .noneK => navPairs pageNavCount rest
    | .strK s =>
      (navPairs pageNavCount rest).map (fun ps => (s, entryTarget pageNavCount c) :: ps)
    | .tupK [some s] =>
      (navPairs pageNavCount rest).map (fun ps => (s, entryTarget pageNavCount c) :: ps)
    | .tupK _ => .error "key shape outside the modelled fragment".toList

/-- Model of the external `mkdocs_gen_files.Nav` dependency restricted to the
fragment `MkNav.to_markdown` exercises: flat keys become a dict keyed by title
(last assignment wins), and `build_literate_nav` yields one `* [title](target)`
line per dict entry (markdown escaping of exotic leading title characters is
outside the modelled fragment). -/
def buildLiterateNav (pairs : List (Str × Str)) : Str :=
  ((pyUpdate [] pairs).map
    (fun p => "* [".toList ++ p.1 ++ "](".toList ++ p.2 ++ ")\n".toList)).flatten

/-- Embedding of `MkNav.to_markdown` (src/mknodes/mknav.py lines 115-131). -/
def MkNavS.to_markdown (pageNavCount : Nat) (n : MkNavS) : Except Str Str :=
  (navPairs pageNavCount n.entries).map buildLiterateNav

/-! ## `MkNode.resolved_parts` (src/mknodes/basenodes/mknode.py lines 130-140)

The method walks the `parent` chain, so a node is modelled together with
its ancestor list (immediate parent first, exactly the order the `while`
loop visits). -/

/-- What `resolved_parts` inspects about a node: whether it is an `MkNav`
and its `section`. -/
structure NInfo where
  isNav : Bool
  sec : Option Str
deriving DecidableEq

/-- A node with its chain of ancestors (immediate parent first). -/
structure LocNode where
  anc : List NInfo
  self : NInfo
deriving DecidableEq

/-- The `parts` list of `resolved_parts` before the final `reversed(...)`:
the node's own truthy section when it is an `MkNav`, then the truthy
sections of `MkNav` ancestors in the order the `while` loop appends them. -/
def partsRaw (l : LocNode) : List Str :=
  (if l.self.isNav then (truthyOpt l.self.sec).toList else []) ++
    l.anc.filterMap (fun i => if i.isNav then truthyOpt i.sec else none)

/-- Embedding of `MkNode.resolved_parts`: collect truthy sections of `MkNav`
nodes from the node itself up the parent chain, then reverse. -/
def resolved_parts (l : LocNode) : List Str :=
  (partsRaw l).reverse

/-- The unnamed root navigation. -/
def rootLoc : LocNode :=
  { anc := [], self := { isNav := true, sec := none } }

/-- `add_nav` as seen by this model: the new sub-nav's parent chain is the
calling nav followed by its ancestors. -/
def addNavLoc (l : LocNode) (s : Str) : LocNode :=
  { anc := l.self :: l.anc, self := { isNav := true, sec := some s } }

/-- The innermost navigation of a chain of successive `add_nav` calls from the
unnamed root. -/
def chainLoc (ss : List Str) : LocNode :=
  ss.foldl addNavLoc rootLoc

/-! ## `MkPage.metadata` (src/mknodes/pages/mkpage.py lines 114-121)

The property builds a fresh `Metadata`, updates it with each parent nav's
metadata, and updates with the page's own metadata last.  Modelled from
the spec where the sources are missing: the `Metadata` class
(src/mknodes/pages/metadata.py is not among the provided sources) behaves
as a dict of the explicitly set fields, `update` overwriting exactly the
fields the argument sets; `parent_navs` (from the missing tree base class)
lists the ancestor navigations root first, so that in the fold a closer
ancestor is merged later and wins on still-contested fields (spec 4.4). -/

/-- A metadata object: the mapping of explicitly set fields. -/
abbrev Metadata := List (Str × Str)

/-- Embedding of the `MkPage.metadata` property: `ancMetas` are the parent
navigations' metadata objects in root-to-leaf order, `own` is the page's
`_metadata`. -/
def MkPage_metadata (ancMetas : List Metadata) (own : Metadata) : Metadata :=
  pyUpdate (ancMetas.foldl pyUpdate []) own

/-- The value the nearest ancestor that sets `f` assigns to it (ancestors
listed root first, so the last setter in the list is the nearest). -/
def nearestAncestorValue : List Metadata → Str → Option Str
  | [], _ => none
  | m :: ms, f => optOr (nearestAncestorValue ms f) (pyGet? m f)

/-! ## `Requirements.merge` (src/mknodes/utils/requirements.py lines 31-37) -/

/-- Python `set |=` union on the plugin set; only membership is meaningful
(CPython does not specify a string set's iteration order). -/
def setUnion (a b : List Str) : List Str :=
  b.foldl (fun acc x => if x ∈ acc then acc else acc ++ [x]) a

/-- Modelled from the spec: `mergehelpers.merge_dicts`
(src/mknodes/utils/mergehelpers.py is not among the provided sources); spec
section 3: "last-writer-wins for scalar/dict collisions on CSS/JS/extension
keys". -/
def merge_dicts (a b : List (Str × Str)) : List (Str × Str) :=
  pyUpdate a b

/-- The `Requirements` dataclass.  Template objects are modelled by opaque
names; only the list structure matters to `merge`. -/
structure Requirements where
  css : List (Str × Str)
  templates : List Str
  markdown_extensions : List (Str × Str)
  plugins : List Str
  js_files : List (Str × Str)
deriving DecidableEq

/-- Embedding of `Requirements.merge`: `css |=`, `templates +=`,
`merge_dicts` on the extensions, `plugins |=`, `js_files |=`. -/
def Requirements.merge (r s : Requirements) : Requirements :=
  { css := pyUpdate r.css s.css
    templates := r.templates ++ s.templates
    markdown_extensions := merge_dicts r.markdown_extensions s.markdown_extensions
    plugins := setUnion r.plugins s.plugins
    js_files := pyUpdate r.js_files s.js_files }

/-! ## `MkTable._to_markdown` (src/mknodes/basenodes/mktable.py lines 14-30)

The guard `if not any(self.data[k] for k in self.data): return ""` returns
the empty string whenever every column's value list is empty (and when
there are no columns at all).  The remaining rendering relies on
`MkBaseTable` helpers (src/mknodes/basenodes/mkbasetable.py is not among
the provided sources); they are modelled from the spec: a column is as wide
as its widest cell or header, and `iter_rows` zips the columns row-wise. -/

/-- Modelled from the spec: `width_for_column` — widest cell or header. -/
def colWidth (header : Str) (cells : List Str) : Nat :=
  max header.length ((cells.map List.length).foldr max 0)

/-- Python `"{:<w}".format(s)`: left-justify to width `w`. -/
def ljust (w : Nat) (s : Str) : Str :=
  s ++ List.replicate (w - s.length) ' '

/-- `str(k).replace("\n", "<br>")` applied to one cell. -/
def brCell (s : Str) : Str :=
  List.intercalate "<br>".toList (splitNl s)

/-- Modelled from the spec: the number of rows `iter_rows` yields — the
shortest column (zipping stops there). -/
def numRows (data : List (Str × List Str)) : Nat :=
  match data.map (fun c => c.2.length) with
  | [] => 0
  | x :: xs => xs.foldl min x

/-- Embedding of `MkTable._to_markdown`. -/
def MkTable_to_markdown (data : List (Str × List Str)) : Str :=
  if data.all (fun c => c.2.isEmpty) then []
  else
    let headers := data.map (fun c => ljust (colWidth c.1 c.2) c.1)
    let divider := data.map (fun c => List.replicate (colWidth c.1 c.2) '-')
    let rows := (List.range (numRows data)).map
      (fun i => data.map (fun c => ljust (colWidth c.1 c.2) (brCell (c.2.getD i []))))
    let headerTxt := "| ".toList ++ List.intercalate " | ".toList headers ++ " |".toList
    let dividerTxt := "| ".toList ++ List.intercalate " | ".toList divider ++ " |".toList
    let rowTxts := rows.map
      (fun line => "| ".toList ++ List.intercalate " | ".toList line ++ " |".toList)
    joinNl (headerTxt :: dividerTxt :: rowTxts) ++ "\n".toList

/-! ## Supporting lemmas for the claim theorems -/

theorem optOr_none_right (a : Option α) : optOr a none = a := by
  cases a <;> rfl

theorem pyGet?_eq_none_of_not_mem {κ α : Type} [DecidableEq κ] (d : List (κ × α)) (k : κ)
    (h : ¬ k ∈ pyKeys d) : pyGet? d k = none := by
  cases hx : pyGet? d k with
  | none => rfl
  | some v => exact absurd ((pyGet?_isSome_iff_mem d k).mp (by simp [hx])) h

/-- On a dict with unique keys, looking up the reversed entry list agrees with
looking up the dict. -/
theorem pyGet?_reverse_of_nodup {κ α : Type} [DecidableEq κ] (d : List (κ × α))
    (h : (pyKeys d).Nodup) (k : κ) : pyGet? d.reverse k = pyGet? d k := by
  induction d with
  | nil => rfl
  | cons p d ih =>
    obtain ⟨hnotin, hnd⟩ := List.nodup_cons.mp (by simpa using h)
    rw [List.reverse_cons, pyGet?_append, ih hnd]
    by_cases hp : p.1 = k
    · subst hp
      rw [pyGet?_eq_none_of_not_mem d p.1 hnotin]
      simp [optOr]
    · simp [hp, optOr_none_right]

theorem pyGet?_foldl_pyUpdate (metas : List Metadata) (hnd : ∀ m ∈ metas, (pyKeys m).Nodup)
    (f : Str) : ∀ d : Metadata,
    pyGet? (metas.foldl pyUpdate d) f = optOr (nearestAncestorValue metas f) (pyGet? d f) := by
  induction metas with
  | nil =>
    intro d
    simp [nearestAncestorValue]
  | cons m ms ih =>
    intro d
    rw [List.foldl_cons, ih (fun x hx => hnd x (by simp [hx])), nearestAncestorValue,
      pyGet?_pyUpdate, pyGet?_reverse_of_nodup m (hnd m (by simp)) f, optOr_assoc]

theorem setUnion_cons (a : List Str) (y : Str) (b : List Str) :
    setUnion a (y :: b) = setUnion (if y ∈ a then a else a ++ [y]) b := rfl

theorem mem_setUnion (a b : List Str) (x : Str) : x ∈ setUnion a b ↔ x ∈ a ∨ x ∈ b := by
  induction b generalizing a with
  | nil => simp [setUnion]
  | cons y b ih =>
    by_cases hy : y ∈ a
    · rw [setUnion_cons, if_pos hy, ih]
      constructor
      · rintro (h1 | h2)
        · exact Or.inl h1
        · exact Or.inr (List.mem_cons_of_mem y h2)
      · rintro (h1 | h2)
        · exact Or.inl h1
        · rcases List.mem_cons.mp h2 with rfl | h3
          · exact Or.inl hy
          · exact Or.inr h3
    · rw [setUnion_cons, if_neg hy, ih]
      rw [List.mem_append, List.mem_singleton, List.mem_cons, or_assoc]

theorem filterMap_cons_toList {α β : Type} (f : α → Option β) (x : α) (xs : List α) :
    List.filterMap f (x :: xs) = (f x).toList ++ List.filterMap f xs := by
  cases hfx : f x <;> simp [List.filterMap_cons, hfx]

theorem partsRaw_eq (l : LocNode) :
    partsRaw l = (if l.self.isNav then truthyOpt l.self.sec else none).toList ++
      l.anc.filterMap (fun i => if i.isNav then truthyOpt i.sec else none) := by
  by_cases hb : l.self.isNav <;> simp [partsRaw, hb]

theorem partsRaw_addNavLoc (l : LocNode) (s : Str) (hs : s ≠ []) :
    partsRaw (addNavLoc l s) = s :: partsRaw l := by
  rw [partsRaw_eq, partsRaw_eq]
  show (if true = true then truthyOpt (some s) else none).toList ++
      List.filterMap _ (l.self :: l.anc) = _
  rw [if_pos rfl, filterMap_cons_toList]
  have hts : truthyOpt (some s) = some s := by simp [truthyOpt, hs]
  rw [hts]
  rfl

theorem partsRaw_chain (ss : List Str) : ∀ l : LocNode, (∀ s ∈ ss, s ≠ []) →
    partsRaw (ss.foldl addNavLoc l) = ss.reverse ++ partsRaw l := by
  induction ss with
  | nil =>
    intro l _
    simp
  | cons s ss ih =>
    intro l h
    rw [List.foldl_cons, ih (addNavLoc l s) (fun x hx => h x (by simp [hx])),
      partsRaw_addNavLoc l s (h s (by simp))]
    simp

/-- The title under which an entry of the `MkNav.nav` dict is inserted into the
generated literate nav, `none` for the skipped index entry (and for key shapes
outside the modelled fragment). -/
def entryTitle? : NavKey → Option Str
  | NavKey.noneK => none
  | NavKey.strK s => some s
  | NavKey.tupK [some s] => some s
  | NavKey.tupK _ => none

/-- Whether a key has one of the shapes the registration API produces
(string, or one-tuple of a string; the `None` index key also qualifies). -/
def flatKey : NavKey → Bool
  | NavKey.tupK [some _] => true
  | NavKey.tupK _ => false
  | _ => true

theorem navPairs_ok (cnt : Nat) (entries : List (NavKey × NavChild))
    (hflat : ∀ e ∈ entries, flatKey e.1 = true) :
    navPairs cnt entries = Except.ok (entries.filterMap
      (fun e => (entryTitle? e.1).map (fun t => (t, entryTarget cnt e.2)))) := by
  induction entries with
  | nil => rfl
  | cons e rest ih =>
    obtain ⟨k, c⟩ := e
    have hrest := ih (fun x hx => hflat x (by simp [hx]))
    cases k with
    | noneK => simp [navPairs, hrest, List.filterMap_cons, entryTitle?]
    | strK s => simp [navPairs, hrest, List.filterMap_cons, entryTitle?, Except.map]
    | tupK parts =>
      have hf : flatKey (NavKey.tupK parts) = true := hflat (NavKey.tupK parts, c) (by simp)
      cases parts with
      | nil => simp [flatKey] at hf
      | cons p ps =>
        cases p with
        | none => simp [flatKey] at hf
        | some s =>
          cases ps with
          | nil => simp [navPairs, hrest, List.filterMap_cons, entryTitle?, Except.map]
          | cons q qs => simp [flatKey] at hf

theorem pyKeys_navPairs (cnt : Nat) (entries : List (NavKey × NavChild)) :
    pyKeys (entries.filterMap
      (fun e => (entryTitle? e.1).map (fun t => (t, entryTarget cnt e.2)))) =
      entries.filterMap (fun e => entryTitle? e.1) := by
  induction entries with
  | nil => rfl
  | cons e rest ih =>
    rw [List.filterMap_cons, List.filterMap_cons]
    cases hte : entryTitle? e.1 with
    | none =>
      simp only [Option.map_none']
      exact ih
    | some t =>
      simp only [Option.map_some']
      rw [pyKeys_cons, ih]

/-- The assignment sequence behind `all_virtual_files` has exactly one entry per
registered file. -/
theorem length_allEntries (n : VNode) : (allEntries n).length = totalFiles n := by
  cases n with
  | mk nv fs cs =>
    rw [allEntries, totalFiles, List.length_append, length_resolvedFiles,
      length_forestEntries]
    omega

/-- Decidable form of "the heading of this line, if any, stays within level 6
after shifting by `k`". -/
def headingFits (k : Int) (l : Str) : Bool :=
  match lineMatch? l with
  | some pr => decide ((pr.1 : Int) + k ≤ 6)
  | none => true

/-! ## Claim theorems -/

/-- Claim C1 (amended): `all_virtual_files()` assigns the resolved entries of
all strict descendants in depth-first order, then the node's own resolved files
last, into one dict.  When the resolved paths are pairwise distinct the result
has exactly one entry per registered file; a collision makes the result
strictly smaller; and lookup always returns the value of the entry assigned
last in that merge order (last writer wins) — which need not be the deeper
node. -/
theorem c1_all_virtual_files_last_writer_wins (n : VNode) :
    ((pyKeys (allEntries n)).Nodup → (all_virtual_files n).length = totalFiles n) ∧
    (¬ (pyKeys (allEntries n)).Nodup → (all_virtual_files n).length < totalFiles n) ∧
    (∀ k : Str, pyGet? (all_virtual_files n) k = pyGet? (allEntries n).reverse k) := by
  refine ⟨?_, ?_, ?_⟩
  · intro hnd
    rw [all_virtual_files, length_pyUpdate_nil, List.Nodup.dedup hnd, length_pyKeys,
      length_allEntries]
  · intro hnd
    rw [all_virtual_files, length_pyUpdate_nil, ← length_allEntries n, ← length_pyKeys]
    exact dedup_length_lt_of_not_nodup _ hnd
  · intro k
    rw [all_virtual_files, pyGet?_pyUpdate]
    rw [pyGet?_nil, optOr_none_right]

/-- Witness for C1 at a collision-free two-node tree: the aggregate holds one
entry per registered file and lookup follows the merge order. -/
theorem c1_all_virtual_files_last_writer_wins_witness :
    (all_virtual_files (VNode.mk (some none) [("SUMMARY.md".toList, "R".toList)]
      (.cons (VNode.mk (some (some "X".toList)) [("X/SUMMARY.md".toList, "S".toList)] .nil)
        .nil))).length =
      totalFiles (VNode.mk (some none) [("SUMMARY.md".toList, "R".toList)]
        (.cons (VNode.mk (some (some "X".toList)) [("X/SUMMARY.md".toList, "S".toList)] .nil)
          .nil)) :=
  (c1_all_virtual_files_last_writer_wins _).1 (by decide)

/-- Claim C1, as stated, is false at this tree: both nodes register the path
`f.md`; the merge is deterministic, but the surviving content is the shallower
root's `ROOT`, not the deeper child's `CHILD`, because `all_virtual_files`
merges the node itself after all of its descendants. -/
theorem c1_deeper_node_loses :
    all_virtual_files (VNode.mk none [("f.md".toList, "ROOT".toList)]
        (.cons (VNode.mk none [("f.md".toList, "CHILD".toList)] .nil) .nil)) =
      [("f.md".toList, "ROOT".toList)] ∧
    ("ROOT".toList : Str) ≠ "CHILD".toList := by
  constructor
  · decide
  · decide

/-- Claim C2: reading a metadata field on a page yields the page's own
explicitly set value when set, otherwise the value of the nearest ancestor
navigation that sets the field, otherwise unset — the property merges the
ancestors root-to-leaf and applies the page's own metadata last. -/
theorem c2_page_metadata_resolution (ancMetas : List Metadata) (own : Metadata) (f : Str)
    (hnd : ∀ m ∈ ancMetas, (pyKeys m).Nodup) (hown : (pyKeys own).Nodup) :
    pyGet? (MkPage_metadata ancMetas own) f =
      optOr (pyGet? own f) (nearestAncestorValue ancMetas f) := by
  rw [MkPage_metadata, pyGet?_pyUpdate, pyGet?_reverse_of_nodup own hown,
    pyGet?_foldl_pyUpdate ancMetas hnd f [], pyGet?_nil, optOr_none_right]

/-- Witness for C2 at a three-level nesting where only the middle ancestor sets
the field: the page resolves to the middle ancestor's value. -/
theorem c2_page_metadata_resolution_witness :
    pyGet? (MkPage_metadata [[], [("status".toList, "new".toList)], []] [])
      ("status".toList) = some "new".toList := by
  have h := c2_page_metadata_resolution [[], [("status".toList, "new".toList)], []] []
    ("status".toList) (by decide) (by decide)
  rw [h]
  decide

/-- Claim C3: `MkNav.to_markdown` renders exactly the direct keyed entries in
insertion order, skipping the `None` index key; a page entry becomes one link
to the page's path, a nested navigation entry becomes the single
directory-style link `section/` (its own entries are not rendered), provided
the keys have the shapes the registration API produces and the titles are
pairwise distinct (identical titles would collapse in the generated nav's
dict). -/
theorem c3_nav_to_markdown_direct_entries (cnt : Nat) (n : MkNavS)
    (hflat : ∀ e ∈ n.entries, flatKey e.1 = true)
    (htitles : (n.entries.filterMap (fun e => entryTitle? e.1)).Nodup) :
    n.to_markdown cnt = Except.ok ((n.entries.filterMap (fun e =>
      (entryTitle? e.1).map (fun t =>
        "* [".toList ++ t ++ "](".toList ++ entryTarget cnt e.2 ++ ")\n".toList))).flatten) := by
  rw [MkNavS.to_markdown, navPairs_ok cnt n.entries hflat]
  show Except.ok (buildLiterateNav _) = _
  rw [buildLiterateNav, pyUpdate_nil_of_nodup _ (by rw [pyKeys_navPairs]; exact htitles)]
  rw [List.map_filterMap]
  have hfun : (fun x : NavKey × NavChild =>
      Option.map (fun p : Str × Str => "* [".toList ++ p.1 ++ "](".toList ++ p.2 ++ ")\n".toList)
        (Option.map (fun t => (t, entryTarget cnt x.2)) (entryTitle? x.1))) =
      (fun e : NavKey × NavChild =>
      Option.map (fun t => "* [".toList ++ t ++ "](".toList ++ entryTarget cnt e.2 ++ ")\n".toList)
        (entryTitle? e.1)) := by
    funext e
    cases entryTitle? e.1 <;> rfl
  rw [hfun]

/-- Witness for C3: a navigation holding a page, an index entry and a sub-nav
renders two links, the sub-nav as a single directory link. -/
theorem c3_nav_to_markdown_direct_entries_witness :
    (MkNavS.mk none "SUMMARY.md".toList
      [(NavKey.strK "Page".toList, NavChild.pageC
          { rawPath := some "Page.md".toList, isHomepage := false, metaTitle := none }),
       (NavKey.noneK, NavChild.pageC
          { rawPath := some "index.md".toList, isHomepage := false, metaTitle := none }),
       (NavKey.tupK [some "Sub".toList],
          NavChild.navC (MkNavS.new (some "Sub".toList)))]).to_markdown 1 =
      Except.ok "* [Page](Page.md)\n* [Sub](Sub/)\n".toList := by
  have h := c3_nav_to_markdown_direct_entries 1
    (MkNavS.mk none "SUMMARY.md".toList
      [(NavKey.strK "Page".toList, NavChild.pageC
          { rawPath := some "Page.md".toList, isHomepage := false, metaTitle := none }),
       (NavKey.noneK, NavChild.pageC
          { rawPath := some "index.md".toList, isHomepage := false, metaTitle := none }),
       (NavKey.tupK [some "Sub".toList],
          NavChild.navC (MkNavS.new (some "Sub".toList)))])
    (by decide) (by decide)
  exact h.trans (by rfl)

/-- Claim C4: `add_page(title)` creates a page with path `title.md` and inserts
it under the key `title` (the path with `.md` stripped); `add_nav(section)`
creates a sub-nav and inserts it under the one-tuple of its section; in both
cases the child is the value stored under the derived key, and re-registering
under a present key silently replaces the entry without growing the dict. -/
theorem c4_nav_registration (n : MkNavS) (title : Str) (cnt : Nat) (s : Str) :
    ((n.add_page cnt title none).2.rawPath = some (title ++ ".md".toList) ∧
     (n.add_page cnt title none).1.entries =
       pyInsert n.entries (NavKey.strK title)
         (NavChild.pageC (n.add_page cnt title none).2) ∧
     pyGet? (n.add_page cnt title none).1.entries (NavKey.strK title) =
       some (NavChild.pageC (n.add_page cnt title none).2)) ∧
    ((n.add_nav s).2 = MkNavS.new (some s) ∧
     (n.add_nav s).1.entries =
       pyInsert n.entries (NavKey.tupK [some s]) (NavChild.navC (n.add_nav s).2) ∧
     pyGet? (n.add_nav s).1.entries (NavKey.tupK [some s]) =
       some (NavChild.navC (n.add_nav s).2)) ∧
    (∀ (d : List (NavKey × NavChild)) (k : NavKey) (v w : NavChild),
      pyGet? d k = some v →
      pyGet? (pyInsert d k w) k = some w ∧ (pyInsert d k w).length = d.length) := by
  have hkey : removesuffix
      (removesuffix (title ++ ".md".toList) ".md".toList ++ ".md".toList) ".md".toList
      = title := by
    rw [removesuffix_append title, removesuffix_append title]
  have hpage : (n.add_page cnt title none).1.entries =
      pyInsert n.entries (NavKey.strK title)
        (NavChild.pageC (n.add_page cnt title none).2) := by
    show (MkNavS.mk n.sec n.fname (pyInsert n.entries (NavKey.strK (removesuffix
      (removesuffix (title ++ ".md".toList) ".md".toList ++ ".md".toList) ".md".toList))
      _)).entries = _
    rw [hkey]
    rfl
  have hnav : (n.add_nav s).1.entries =
      pyInsert n.entries (NavKey.tupK [some s]) (NavChild.navC (n.add_nav s).2) := rfl
  refine ⟨⟨rfl, hpage, ?_⟩, ⟨rfl, hnav, ?_⟩, ?_⟩
  · rw [hpage, pyGet?_pyInsert]
    simp
  · rw [hnav, pyGet?_pyInsert]
    simp
  · intro d k v w h
    have hmem : k ∈ pyKeys d := (pyGet?_isSome_iff_mem d k).mp (by simp [h])
    constructor
    · rw [pyGet?_pyInsert]
      simp
    · exact length_pyInsert_mem d k w hmem

/-- Witness for C4: re-registering under the present key `A` replaces the page
and keeps the dict at one entry. -/
theorem c4_nav_registration_witness :
    pyGet? (pyInsert [(NavKey.strK "A".toList, NavChild.pageC
        { rawPath := some "A.md".toList, isHomepage := false, metaTitle := none })]
      (NavKey.strK "A".toList) (NavChild.pageC
        { rawPath := some "other.md".toList, isHomepage := false, metaTitle := none }))
      (NavKey.strK "A".toList) = some (NavChild.pageC
        { rawPath := some "other.md".toList, isHomepage := false, metaTitle := none }) ∧
    (pyInsert [(NavKey.strK "A".toList, NavChild.pageC
        { rawPath := some "A.md".toList, isHomepage := false, metaTitle := none })]
      (NavKey.strK "A".toList) (NavChild.pageC
        { rawPath := some "other.md".toList, isHomepage := false, metaTitle := none })).length
      = 1 :=
  (c4_nav_registration (MkNavS.new none) "Page".toList 1 "Sub".toList).2.2
    [(NavKey.strK "A".toList, NavChild.pageC
        { rawPath := some "A.md".toList, isHomepage := false, metaTitle := none })]
    (NavKey.strK "A".toList)
    (NavChild.pageC { rawPath := some "A.md".toList, isHomepage := false, metaTitle := none })
    (NavChild.pageC { rawPath := some "other.md".toList, isHomepage := false, metaTitle := none })
    rfl

/-- Claim C5: shifting headers by `+k` and then by `-k` restores the original
text whenever every heading line of level `m` in the input satisfies
`m + k <= 6` (no heading exceeded level 6 in the intermediate result). -/
theorem c5_shift_header_levels_inverse (text : Str) (k : Int) (hk : 0 < k)
    (hfits : ∀ l ∈ splitNl text, headingFits k l = true) :
    shift_header_levels (shift_header_levels text k) (-k) = text := by
  apply shift_header_levels_roundtrip text k hk
  intro l hl h rest hm
  have hf := hfits l hl
  unfold headingFits at hf
  rw [hm] at hf
  exact of_decide_eq_true hf

/-- Witness for C5 on a two-line text with one level-1 heading shifted by 2. -/
theorem c5_shift_header_levels_inverse_witness :
    shift_header_levels (shift_header_levels "# T\nbody".toList 2) (-2) =
      "# T\nbody".toList :=
  c5_shift_header_levels_inverse "# T\nbody".toList 2 (by decide) (by decide)

/-- Claim C7: for a chain of navigations built by successive `add_nav` calls
from an unnamed root, `resolved_parts` of the innermost navigation is the list
of section names from the outermost named navigation down to the innermost. -/
theorem c7_resolved_parts_chain (ss : List Str) (h : ∀ s ∈ ss, s ≠ []) :
    resolved_parts (chainLoc ss) = ss := by
  rw [resolved_parts, chainLoc, partsRaw_chain ss rootLoc h]
  rw [show partsRaw rootLoc = [] from rfl, List.append_nil, List.reverse_reverse]

/-- Witness for C7: the chain root, `subsection`, `subsubsection` (the
scenario of `test_resolved_path`). -/
theorem c7_resolved_parts_chain_witness :
    resolved_parts (chainLoc ["subsection".toList, "subsubsection".toList]) =
      ["subsection".toList, "subsubsection".toList] :=
  c7_resolved_parts_chain ["subsection".toList, "subsubsection".toList] (by decide)

/-- Claim C8: after `r.merge(s)`, every CSS, JS and markdown-extension key that
both sides define is bound to `s`'s value (last writer wins), the templates are
`r`'s followed by `s`'s with no deduplication, and the plugin set is the union
of both plugin sets. -/
theorem c8_requirements_merge (r s : Requirements)
    (hc : (pyKeys s.css).Nodup) (hj : (pyKeys s.js_files).Nodup)
    (hm : (pyKeys s.markdown_extensions).Nodup) :
    (∀ k v w, pyGet? r.css k = some v → pyGet? s.css k = some w →
      pyGet? (r.merge s).css k = some w) ∧
    (∀ k v w, pyGet? r.js_files k = some v → pyGet? s.js_files k = some w →
      pyGet? (r.merge s).js_files k = some w) ∧
    (∀ k v w, pyGet? r.markdown_extensions k = some v →
      pyGet? s.markdown_extensions k = some w →
      pyGet? (r.merge s).markdown_extensions k = some w) ∧
    (r.merge s).templates = r.templates ++ s.templates ∧
    (∀ x, x ∈ (r.merge s).plugins ↔ x ∈ r.plugins ∨ x ∈ s.plugins) := by
  refine ⟨?_, ?_, ?_, rfl, fun x => mem_setUnion r.plugins s.plugins x⟩
  · intro k v w _ h2
    show pyGet? (pyUpdate r.css s.css) k = some w
    rw [pyGet?_pyUpdate, pyGet?_reverse_of_nodup s.css hc, h2]
    rfl
  · intro k v w _ h2
    show pyGet? (pyUpdate r.js_files s.js_files) k = some w
    rw [pyGet?_pyUpdate, pyGet?_reverse_of_nodup s.js_files hj, h2]
    rfl
  · intro k v w _ h2
    show pyGet? (pyUpdate r.markdown_extensions s.markdown_extensions) k = some w
    rw [pyGet?_pyUpdate, pyGet?_reverse_of_nodup s.markdown_extensions hm, h2]
    rfl

/-- Witness for C8: both sides define `a.css`; after the merge it is bound to
the right-hand side's content. -/
theorem c8_requirements_merge_witness :
    pyGet? ((Requirements.mk [("a.css".toList, "A".toList)] [] [] [] []).merge
      (Requirements.mk [("a.css".toList, "B".toList)] [] [] [] [])).css ("a.css".toList) =
      some "B".toList :=
  (c8_requirements_merge
    (Requirements.mk [("a.css".toList, "A".toList)] [] [] [] [])
    (Requirements.mk [("a.css".toList, "B".toList)] [] [] [] [])
    (by decide) (by decide) (by decide)).1
    ("a.css".toList) ("A".toList) ("B".toList) rfl rfl

/-- Claim C9: a table whose every column has an empty value list renders to the
empty string (no header row and divider are emitted). -/
theorem c9_mktable_empty_rows (data : List (Str × List Str))
    (h : ∀ c ∈ data, c.2 = []) : MkTable_to_markdown data = [] := by
  unfold MkTable_to_markdown
  rw [if_pos]
  exact List.all_eq_true.mpr (fun c hc => by rw [h c hc]; rfl)

/-- Witness for C9 at a two-column table with no data rows. -/
theorem c9_mktable_empty_rows_witness :
    MkTable_to_markdown [("Column A".toList, []), ("Column B".toList, [])] = [] :=
  c9_mktable_empty_rows [("Column A".toList, []), ("Column B".toList, [])] (by decide)

/-- Claim C10: with `shift_header_levels = 0` the rendering pipeline skips the
shifting step entirely (the truthiness guard), leaving headings intact, even
though the bare transform at level 0 truncates every heading marker to the
empty string (the slice `header_str[:0]`), so level 0 is an identity only at
the node-rendering interface. -/
theorem c10_shift_zero_guard :
    (∀ (cfg : NodeCfg) (raw : Str), cfg.shiftHeaderLevels = 0 →
      to_markdownNode cfg raw =
        attach_annotations cfg.annotations
          (headerStage cfg (cssStage cfg (indentStage cfg raw)))) ∧
    (∀ (l : Str) (h : Nat) (rest : Str), lineMatch? l = some (h, rest) →
      shiftLine 0 l = ' ' :: rest ∧ shiftLine 0 l ≠ l) := by
  constructor
  · intro cfg raw h0
    rw [to_markdownNode, shiftStage, if_neg (by simp [h0])]
  · intro l h rest hm
    obtain ⟨hl, h1, _⟩ := lineMatch?_eq_some l h rest hm
    have hshift : shiftLine 0 l = ' ' :: rest := by
      simp [shiftLine, hm, pySliceTo]
    refine ⟨hshift, ?_⟩
    rw [hshift, hl]
    cases h with
    | zero => omega
    | succ m =>
      rw [List.replicate_succ, List.cons_append]
      intro heq
      injection heq with hc _
      exact absurd hc (by decide)

/-- Witness for C10: the bare transform at level 0 erases the marker of
`# A` while the node pipeline at shift 0 does not touch it. -/
theorem c10_shift_zero_guard_witness :
    shiftLine 0 "# A".toList = (' ' :: "A".toList) ∧ shiftLine 0 "# A".toList ≠ "# A".toList :=
  c10_shift_zero_guard.2 "# A".toList 1 "A".toList (by decide)

end Mknodes
